import Mathlib

/-!
Shallow embedding of `src/helpers.rs` from the hyperliquid-rust-sdk fragment.

Two components are modelled:

* `next_nonce()` — a CAS retry loop over a process-wide `AtomicU64`.
  Machine integers `u64` are modelled as `ℕ` together with the bound
  `U64_MAX = 2^64 - 1`; `u64::saturating_add` becomes `satAdd`.
  One loop iteration is a pure function of the loaded state `current` and
  the wall-clock reading `now_ms`; a concurrent execution is modelled by
  the linearisation of its successful CAS operations: each successful call
  reads the state left by the previous successful call and an arbitrary
  clock value, so `nonceRets` folds a list of clock readings over the state.

* `float_to_string_for_hashing` — `format!("{:.8}", x)` followed by
  trimming of trailing `'0'`s, a trailing `'.'`, and the `"-0"` fix-up.
  A finite `f64` is an exact rational number, and Rust's fixed-precision
  formatting prints the sign (`-` iff the sign bit is set) followed by the
  exact magnitude rounded to 8 fractional digits, round-half-to-even.
  Strings are modelled as `List Char`; the signed zero `-0.0` is the
  sign/magnitude pair `(true, 0)` accepted by `encodeMag`.
-/

/-- `u64::MAX`. -/
def U64_MAX : ℕ := 2 ^ 64 - 1

/-- `u64::saturating_add`: addition clamped at `u64::MAX`. -/
def satAdd (a b : ℕ) : ℕ := min (a + b) U64_MAX

/-- `let target = if current.saturating_add(5000) < now_ms { now_ms } else { current }` -/
def nonceTarget (current now_ms : ℕ) : ℕ :=
  if satAdd current 5000 < now_ms then now_ms else current

/-- Observable outcome of one iteration of the `next_nonce` loop whose CAS
succeeds: the returned nonce, the value stored into `CUR_NONCE`, and the
drift log event (`info!("nonce progressed too far ahead {current} {now_ms}")`)
with its two payload values, when emitted. -/
structure NonceStep where
  ret : ℕ
  next : ℕ
  drift : Option (ℕ × ℕ)
deriving DecidableEq

/-- One iteration of the loop body of `next_nonce` (lines 16–42 of
`helpers.rs`), given the loaded state `current` and clock reading `now_ms`. -/
def nonceStep (current now_ms : ℕ) : NonceStep :=
  let drift := if now_ms + 1000 < current then some (current, now_ms) else none
  let target := nonceTarget current now_ms
  { ret := target, next := satAdd target 1, drift := drift }

/-- The same iteration with the drift-detection branch (lines 20–22) removed:
only the returned value and the stored successor remain. -/
def nonceStepNoDrift (current now_ms : ℕ) : ℕ × ℕ :=
  let target := if satAdd current 5000 < now_ms then now_ms else current
  (target, satAdd target 1)

/-- The sequence of values returned by successive successful `next_nonce`
calls, starting from stored state `s`, where the k-th successful call observes
the k-th clock reading of `nows`. Failed CAS attempts do not change the state,
so they do not appear. -/
def nonceRets : ℕ → List ℕ → List ℕ
  | _, [] => []
  | s, now :: rest => (nonceStep s now).ret :: nonceRets (nonceStep s now).next rest

/-- `WIRE_DECIMALS` from `helpers.rs`. -/
def WIRE_DECIMALS : ℕ := 8

/-- `10 ^ k`, used to scale by the configured precision. -/
def pow10 (k : ℕ) : ℕ := 10 ^ k

/-- Round a rational to the nearest integer, ties to the even integer. -/
def roundHalfEven (q : ℚ) : ℤ :=
  if q - ⌊q⌋ < 1 / 2 then ⌊q⌋
  else if 1 / 2 < q - ⌊q⌋ then ⌊q⌋ + 1
  else if ⌊q⌋ % 2 = 0 then ⌊q⌋ else ⌊q⌋ + 1

/-- Little-endian decimal digits of `n` (empty for 0), fuel-bounded. -/
def natToDigitsRev : ℕ → ℕ → List ℕ
  | 0, _ => []
  | fuel + 1, n => if n = 0 then [] else n % 10 :: natToDigitsRev fuel (n / 10)

/-- Decimal numeral of `n`, most significant digit first. -/
def natDecimal (n : ℕ) : List Char :=
  if n = 0 then ['0'] else ((natToDigitsRev n n).map Nat.digitChar).reverse

/-- Exactly `w` little-endian decimal digits of `n % 10^w`. -/
def natToFixedRev : ℕ → ℕ → List ℕ
  | 0, _ => []
  | w + 1, n => n % 10 :: natToFixedRev w (n / 10)

/-- The 8 zero-padded fractional digits, most significant first. -/
def frac8 (n : ℕ) : List Char :=
  ((natToFixedRev WIRE_DECIMALS n).map Nat.digitChar).reverse

/-- `format!("{:.8}", x)` given the sign bit and `n`, the magnitude already
scaled by `10^8` and correctly rounded. -/
def fmt8n (neg : Bool) (n : ℕ) : List Char :=
  (if neg then ['-'] else []) ++ natDecimal (n / pow10 WIRE_DECIMALS) ++
    '.' :: frac8 n

/-- `while x.ends_with('0') { x.pop(); }` -/
def rstrip0 (l : List Char) : List Char :=
  (l.reverse.dropWhile (fun c => c == '0')).reverse

/-- `if x.ends_with('.') { x.pop(); }` -/
def stripDot (l : List Char) : List Char :=
  if l.getLast? = some '.' then l.dropLast else l

/-- The trimming steps of `float_to_string_for_hashing`, including the
`"-0"` fix-up. -/
def encodeTrim (l : List Char) : List Char :=
  if stripDot (rstrip0 l) = ['-', '0'] then ['0'] else stripDot (rstrip0 l)

def encodeMagN (neg : Bool) (n : ℕ) : List Char := encodeTrim (fmt8n neg n)

/-- `float_to_string_for_hashing` on a finite `f64` given as sign bit plus
exact magnitude: Rust prints `-` iff the sign bit is set, then the magnitude
rounded at the 8th fractional digit (round half to even), then the code trims
trailing zeros, a trailing dot, and rewrites `"-0"` to `"0"`. -/
def encodeMag (neg : Bool) (mag : ℚ) : List Char :=
  encodeMagN neg (roundHalfEven (mag * (pow10 WIRE_DECIMALS : ℕ))).toNat

/-- `float_to_string_for_hashing` on the exact rational value of a finite
`f64` (for nonzero values the sign bit is equivalent to `x < 0`; the signed
zero `-0.0` is covered by `encodeMag true 0`). -/
def float_to_string_for_hashing (x : ℚ) : List Char :=
  encodeMag (decide (x < 0)) |x|


/-- The ten decimal digit characters. -/
def digitChars : List Char := ['0', '1', '2', '3', '4', '5', '6', '7', '8', '9']

/-- The grammar `-?[0-9]+(\\.[0-9]+)?` of the spec, read off a character
list: an optional minus sign, a nonempty run of digits, and an optional
fractional part consisting of a dot followed by a nonempty run of digits. -/
def matchesNumGrammar (l : List Char) : Prop :=
  ∃ s i f, l = s ++ i ++ f ∧ (s = [] ∨ s = ['-']) ∧ i ≠ [] ∧ (∀ c ∈ i, c ∈ digitChars) ∧
    (f = [] ∨ ∃ fd, f = '.' :: fd ∧ fd ≠ [] ∧ ∀ c ∈ fd, c ∈ digitChars)

/-- Value of a little-endian digit list. -/
def ofRev : List ℕ → ℕ
  | [] => 0
  | d :: t => d + 10 * ofRev t

/-- Numeric value of a digit character. -/
def charVal (c : Char) : ℕ := c.toNat - 48

/-- Value of a big-endian digit-character run. -/
def digitsVal (l : List Char) : ℕ := l.foldl (fun a c => 10 * a + charVal c) 0

/-- Read a (sign-free) decimal string back as a rational: integer digits up
to the first dot, then fractional digits scaled by their count. -/
def denoteUnsigned (l : List Char) : ℚ :=
  (digitsVal (l.takeWhile (fun c => c != '.')) : ℚ) +
    (digitsVal ((l.dropWhile (fun c => c != '.')).tail) : ℚ) /
      (pow10 ((l.dropWhile (fun c => c != '.')).tail).length : ℕ)

/-- Read a decimal string back as a rational, honouring a leading minus. -/
def denoteChars (l : List Char) : ℚ :=
  if l.head? = some '-' then -denoteUnsigned l.tail else denoteUnsigned l

/-- The input value rounded at the 8th fractional digit (round half to even
on the magnitude, sign reapplied); negative zero collapses to zero. -/
def round8val (x : ℚ) : ℚ :=
  (if x < 0 then -1 else 1) *
    ((roundHalfEven (|x| * (pow10 WIRE_DECIMALS : ℕ))).toNat : ℚ) /
      (pow10 WIRE_DECIMALS : ℕ)

theorem length_nonceRets (s : ℕ) (nows : List ℕ) :
    (nonceRets s nows).length = nows.length := by
  induction nows generalizing s with
  | nil => rfl
  | cons now rest ih => simp [nonceRets, ih]

theorem nonceTarget_ge (current now : ℕ) (hn : now ≤ U64_MAX) :
    current ≤ nonceTarget current now := by
  unfold nonceTarget satAdd at *
  split <;> omega

theorem nonceTarget_le (current now : ℕ) (hc : current ≤ U64_MAX)
    (hn : now ≤ U64_MAX) : nonceTarget current now ≤ U64_MAX := by
  unfold nonceTarget
  split <;> omega

theorem nonceRets_cons (s now : ℕ) (rest : List ℕ) :
    nonceRets s (now :: rest) =
      nonceTarget s now :: nonceRets (satAdd (nonceTarget s now) 1) rest := rfl

theorem nonceRets_lower (s : ℕ) (nows : List ℕ) (hs : s ≤ U64_MAX)
    (hn : ∀ t ∈ nows, t ≤ U64_MAX) (k : ℕ) (hk : k < (nonceRets s nows).length) :
    s ≤ (nonceRets s nows).getD k 0 := by
  induction nows generalizing s k with
  | nil => simp [nonceRets] at hk
  | cons now rest ih =>
    have hnow : now ≤ U64_MAX := hn now (List.mem_cons_self now rest)
    match k with
    | 0 =>
      rw [nonceRets_cons, List.getD_cons_zero]
      exact nonceTarget_ge s now hnow
    | k + 1 =>
      have hnext : s ≤ satAdd (nonceTarget s now) 1 := by
        have := nonceTarget_ge s now hnow
        unfold satAdd
        omega
      have hnextle : satAdd (nonceTarget s now) 1 ≤ U64_MAX := by
        unfold satAdd; omega
      have hk' : k < (nonceRets (satAdd (nonceTarget s now) 1) rest).length := by
        rw [nonceRets_cons] at hk
        simpa using Nat.lt_of_succ_lt_succ hk
      have := ih (satAdd (nonceTarget s now) 1) hnextle
        (fun t ht => hn t (List.mem_cons_of_mem now ht)) k hk'
      rw [nonceRets_cons, List.getD_cons_succ]
      omega

theorem nonceRets_strict (s : ℕ) (nows : List ℕ) (hs : s ≤ U64_MAX)
    (hn : ∀ t ∈ nows, t ≤ U64_MAX) (i j : ℕ) (hij : i < j)
    (hj : j < (nonceRets s nows).length)
    (hi : (nonceRets s nows).getD i 0 < U64_MAX) :
    (nonceRets s nows).getD i 0 < (nonceRets s nows).getD j 0 := by
  induction nows generalizing s i j with
  | nil => simp [nonceRets] at hj
  | cons now rest ih =>
    have hnow : now ≤ U64_MAX := hn now (List.mem_cons_self now rest)
    have hnextle : satAdd (nonceTarget s now) 1 ≤ U64_MAX := by unfold satAdd; omega
    have hrest : ∀ t ∈ rest, t ≤ U64_MAX := fun t ht => hn t (List.mem_cons_of_mem now ht)
    match i, j with
    | 0, j + 1 =>
      rw [nonceRets_cons, List.getD_cons_zero] at hi
      rw [nonceRets_cons, List.getD_cons_zero, List.getD_cons_succ]
      have hj' : j < (nonceRets (satAdd (nonceTarget s now) 1) rest).length := by
        rw [nonceRets_cons] at hj
        simpa using Nat.lt_of_succ_lt_succ hj
      have hlow := nonceRets_lower (satAdd (nonceTarget s now) 1) rest hnextle hrest j hj'
      have hstep : nonceTarget s now < satAdd (nonceTarget s now) 1 := by
        unfold satAdd; omega
      exact lt_of_lt_of_le hstep hlow
    | i + 1, j + 1 =>
      rw [nonceRets_cons, List.getD_cons_succ] at hi
      rw [nonceRets_cons, List.getD_cons_succ, List.getD_cons_succ]
      have hj' : j < (nonceRets (satAdd (nonceTarget s now) 1) rest).length := by
        rw [nonceRets_cons] at hj
        simpa using Nat.lt_of_succ_lt_succ hj
      exact ih (satAdd (nonceTarget s now) 1) hnextle hrest i j
        (Nat.lt_of_succ_lt_succ hij) hj' hi

theorem nonceTarget_behind_eq (s t : ℕ) (hnt : t ≤ U64_MAX) (hbt : t - s ≤ 5000) :
    nonceTarget s t = s := by
  unfold nonceTarget satAdd
  split <;> omega

theorem satAdd_one_le (s : ℕ) : satAdd s 1 ≤ U64_MAX := Nat.min_le_right _ _

theorem behind_satAdd_one (s now : ℕ) (hs : s ≤ U64_MAX) (h : now - s ≤ 5000) :
    now - satAdd s 1 ≤ 5000 := by
  unfold satAdd
  omega

theorem nonceRets_const_clock_zero (s : ℕ) (rest : List ℕ) (t : ℕ)
    (htarget : nonceTarget s t = s) (hs : s ≤ U64_MAX) :
    (nonceRets s (t :: rest)).getD 0 0 = min (s + 0) U64_MAX := by
  rw [nonceRets_cons, List.getD_cons_zero, htarget]
  omega

theorem nonceRets_const_clock_succ (s k : ℕ) (rest : List ℕ) (t : ℕ)
    (htarget : nonceTarget s t = s)
    (hrec : (nonceRets (satAdd s 1) rest).getD k 0 = min (satAdd s 1 + k) U64_MAX)
    (hs : s ≤ U64_MAX) :
    (nonceRets s (t :: rest)).getD (k + 1) 0 = min (s + (k + 1)) U64_MAX := by
  rw [nonceRets_cons, htarget, List.getD_cons_succ, hrec]
  unfold satAdd
  omega

theorem nonceRets_const_clock (now : ℕ) (nows : List ℕ) (hconst : ∀ t ∈ nows, t = now)
    (hn : now ≤ U64_MAX) (s : ℕ) (hs : s ≤ U64_MAX) (hbehind : now - s ≤ 5000)
    (k : ℕ) (hk : k < (nonceRets s nows).length) :
    (nonceRets s nows).getD k 0 = min (s + k) U64_MAX := by
  induction nows generalizing s k with
  | nil => simp [nonceRets] at hk
  | cons t rest ih =>
    have ht : t = now := hconst t (List.mem_cons_self t rest)
    have hnt : t ≤ U64_MAX := by rw [ht]; exact hn
    have hbt : t - s ≤ 5000 := by rw [ht]; exact hbehind
    have htarget : nonceTarget s t = s := nonceTarget_behind_eq s t hnt hbt
    cases k with
    | zero => exact nonceRets_const_clock_zero s rest t htarget hs
    | succ k =>
      have hk' : k < (nonceRets (satAdd s 1) rest).length := by
        rw [length_nonceRets] at hk ⊢
        simp only [List.length_cons] at hk
        omega
      exact nonceRets_const_clock_succ s k rest t htarget
        (ih (fun u hu => hconst u (List.mem_cons_of_mem t hu)) (satAdd s 1)
          (satAdd_one_le s) (behind_satAdd_one s now hs hbehind) k hk') hs

/-- C1 (amended): along any linearised sequence of successful `next_nonce`
calls — arbitrary per-call clock readings, all values in u64 range — the
returned values are strictly increasing, provided the earlier value is below
`u64::MAX`. (At `u64::MAX` the saturating successor repeats the value, so the
unconditional claim is false; see the counterexample.) -/
theorem nonce_strictly_increasing (s0 : ℕ) (nows : List ℕ) (hs : s0 ≤ U64_MAX)
    (hn : ∀ t ∈ nows, t ≤ U64_MAX) (i j : ℕ) (hij : i < j)
    (hj : j < (nonceRets s0 nows).length)
    (hi : (nonceRets s0 nows).getD i 0 < U64_MAX) :
    (nonceRets s0 nows).getD i 0 < (nonceRets s0 nows).getD j 0 :=
  nonceRets_strict s0 nows hs hn i j hij hj hi

/-- C1 witness: from state 100 with three calls at clock reading 100, the
first and third returned values are 100 < 102. -/
theorem nonce_strictly_increasing_witness :
    (nonceRets 100 [100, 100, 100]).getD 0 0 < (nonceRets 100 [100, 100, 100]).getD 2 0 :=
  nonce_strictly_increasing 100 [100, 100, 100] (by decide) (by decide) 0 2
    (by decide) (by decide) (by decide)

/-- C1 counterexample: starting from state 0, two calls that both observe
clock reading `u64::MAX` return the identical value `u64::MAX` twice, so
"no two calls ever return the same value" is false as stated. -/
theorem nonce_strictly_increasing_counterexample :
    nonceRets 0 [U64_MAX, U64_MAX] = [U64_MAX, U64_MAX] ∧
    (nonceRets 0 [U64_MAX, U64_MAX]).getD 0 0 = (nonceRets 0 [U64_MAX, U64_MAX]).getD 1 0 := by
  constructor <;> decide

/-- C3: in one iteration of `next_nonce`, if `current` is more than 5000 ms
behind `now_ms` the call returns `now_ms` and stores `now_ms + 1`, otherwise
it returns `current` and stores `current + 1` (`+ 1` being the u64 saturating
successor the spec prescribes for the stored value). -/
theorem staleness_correction (current now : ℕ) (hc : current ≤ U64_MAX)
    (hn : now ≤ U64_MAX) :
    (5000 < now - current →
      (nonceStep current now).ret = now ∧ (nonceStep current now).next = satAdd now 1) ∧
    (now - current ≤ 5000 →
      (nonceStep current now).ret = current ∧
        (nonceStep current now).next = satAdd current 1) := by
  have hret : (nonceStep current now).ret = nonceTarget current now := rfl
  have hnext : (nonceStep current now).next = satAdd (nonceTarget current now) 1 := rfl
  have hcond : satAdd current 5000 < now ↔ 5000 < now - current := by
    simp only [satAdd, U64_MAX] at hn ⊢
    omega
  constructor <;> intro h
  · have ht : nonceTarget current now = now := by
      unfold nonceTarget
      rw [if_pos (hcond.mpr h)]
    exact ⟨by rw [hret, ht], by rw [hnext, ht]⟩
  · have ht : nonceTarget current now = current := by
      have hnot : ¬ satAdd current 5000 < now := fun hcontra => by
        have := hcond.mp hcontra
        omega
      unfold nonceTarget
      rw [if_neg hnot]
    exact ⟨by rw [hret, ht], by rw [hnext, ht]⟩

/-- C3 witness: at state 0 and clock 6000 the call is rebased to 6000; at
state 7000 and clock 7000 it continues from 7000. -/
theorem staleness_correction_witness :
    ((nonceStep 0 6000).ret = 6000 ∧ (nonceStep 0 6000).next = satAdd 6000 1) ∧
    ((nonceStep 7000 7000).ret = 7000 ∧ (nonceStep 7000 7000).next = satAdd 7000 1) :=
  ⟨(staleness_correction 0 6000 (by decide) (by decide)).1 (by decide),
   (staleness_correction 7000 7000 (by decide) (by decide)).2 (by decide)⟩

/-- C5: the drift-detection branch only emits a log event: the iteration with
the branch removed (`nonceStepNoDrift`) returns the same value and stores the
same successor as the full iteration, for every state and clock reading. -/
theorem drift_branch_log_only (current now : ℕ) :
    (nonceStep current now).ret = (nonceStepNoDrift current now).1 ∧
    (nonceStep current now).next = (nonceStepNoDrift current now).2 :=
  ⟨rfl, rfl⟩

/-- C6 (amended): sequential calls whose clock readings are all equal (calls
outpace wall-clock time), starting from a state at most 5000 ms behind that
clock, return consecutive values: each return equals the previous one plus 1,
provided the previous one is below `u64::MAX` (at `u64::MAX` the value
repeats; see the counterexample). -/
theorem burst_increments_by_one (s now : ℕ) (nows : List ℕ) (hs : s ≤ U64_MAX)
    (hn : now ≤ U64_MAX) (hconst : ∀ t ∈ nows, t = now) (hbehind : now - s ≤ 5000)
    (k : ℕ) (hk : k + 1 < (nonceRets s nows).length)
    (hmax : (nonceRets s nows).getD k 0 < U64_MAX) :
    (nonceRets s nows).getD (k + 1) 0 = (nonceRets s nows).getD k 0 + 1 := by
  have h1 := nonceRets_const_clock now nows hconst hn s hs hbehind k (by omega)
  have h2 := nonceRets_const_clock now nows hconst hn s hs hbehind (k + 1) hk
  omega

/-- C6 witness: two calls from state 100 at constant clock 100 return 100 and
then 101. -/
theorem burst_increments_by_one_witness :
    (nonceRets 100 [100, 100]).getD 1 0 = (nonceRets 100 [100, 100]).getD 0 0 + 1 :=
  burst_increments_by_one 100 100 [100, 100] (by decide) (by decide) (by decide)
    (by decide) 0 (by decide) (by decide)

/-- C6 counterexample: at state `u64::MAX` with the clock constant at
`u64::MAX` (so the state is 0 ms behind), the second call returns the same
value as the first, not the first plus 1. -/
theorem burst_increments_by_one_counterexample :
    ¬ (nonceRets U64_MAX [U64_MAX, U64_MAX]).getD 1 0 =
        (nonceRets U64_MAX [U64_MAX, U64_MAX]).getD 0 0 + 1 := by
  decide

/-- C7: the stored successor is the saturating increment: it equals
`min (target + 1) u64::MAX` and never exceeds `u64::MAX`, for every loaded
state and clock reading. -/
theorem next_is_saturating_succ (current now : ℕ) :
    (nonceStep current now).next = min ((nonceStep current now).ret + 1) U64_MAX ∧
    (nonceStep current now).next ≤ U64_MAX :=
  ⟨rfl, Nat.min_le_right _ _⟩

/-- C8: the value returned by an iteration of `next_nonce` is never more than
5000 ms behind the clock reading `now_ms` observed by that iteration. -/
theorem ret_at_most_5000_behind (current now : ℕ) :
    now - 5000 ≤ (nonceStep current now).ret := by
  have h : (nonceStep current now).ret = nonceTarget current now := rfl
  rw [h]
  unfold nonceTarget satAdd
  split <;> omega

/-- C10: if the stored state is `u64::MAX`, a call returns `u64::MAX` and
leaves the state at `u64::MAX`, so two successive calls both return
`u64::MAX`. -/
theorem max_state_repeats (now1 now2 : ℕ) (h1 : now1 ≤ U64_MAX) (h2 : now2 ≤ U64_MAX) :
    (nonceStep U64_MAX now1).ret = U64_MAX ∧ (nonceStep U64_MAX now1).next = U64_MAX ∧
    nonceRets U64_MAX [now1, now2] = [U64_MAX, U64_MAX] := by
  have ht : ∀ n, n ≤ U64_MAX → nonceTarget U64_MAX n = U64_MAX := by
    intro n hn
    unfold nonceTarget satAdd
    split <;> omega
  have hnx : satAdd U64_MAX 1 = U64_MAX := by unfold satAdd; omega
  refine ⟨ht now1 h1, ?_, ?_⟩
  · show satAdd (nonceTarget U64_MAX now1) 1 = U64_MAX
    rw [ht now1 h1, hnx]
  · rw [nonceRets_cons, ht now1 h1, hnx, nonceRets_cons, ht now2 h2, hnx]
    rfl

/-- C10 witness: both successive calls from state `u64::MAX` at clock reading
0 return `u64::MAX`. -/
theorem max_state_repeats_witness :
    (nonceStep U64_MAX 0).ret = U64_MAX ∧ (nonceStep U64_MAX 0).next = U64_MAX ∧
    nonceRets U64_MAX [0, 0] = [U64_MAX, U64_MAX] :=
  max_state_repeats 0 0 (by decide) (by decide)

theorem ofRev_natToDigitsRev (fuel : ℕ) :
    ∀ n : ℕ, n ≤ fuel → ofRev (natToDigitsRev fuel n) = n := by
  induction fuel with
  | zero =>
    intro n h
    have : n = 0 := by omega
    subst this
    rfl
  | succ fuel ih =>
    intro n h
    by_cases hn : n = 0
    · subst hn
      simp [natToDigitsRev, ofRev]
    · rw [natToDigitsRev, if_neg hn, ofRev, ih (n / 10) (by omega)]
      omega

theorem natToDigitsRev_lt10 (fuel : ℕ) :
    ∀ n : ℕ, ∀ d ∈ natToDigitsRev fuel n, d < 10 := by
  induction fuel with
  | zero =>
    intro n d hd
    simp [natToDigitsRev] at hd
  | succ fuel ih =>
    intro n d hd
    rw [natToDigitsRev] at hd
    split at hd
    · simp at hd
    · rcases List.mem_cons.mp hd with h | h
      · subst h
        exact Nat.mod_lt _ (by omega)
      · exact ih (n / 10) d h

theorem natToDigitsRev_ne_nil (fuel n : ℕ) (hn : n ≠ 0) (h : n ≤ fuel) :
    natToDigitsRev fuel n ≠ [] := by
  match fuel with
  | 0 => omega
  | fuel + 1 =>
    rw [natToDigitsRev, if_neg hn]
    exact List.cons_ne_nil _ _

theorem natToFixedRev_length (w : ℕ) : ∀ n, (natToFixedRev w n).length = w := by
  induction w with
  | zero => intro n; rfl
  | succ w ih =>
    intro n
    rw [natToFixedRev, List.length_cons, ih (n / 10)]

theorem natToFixedRev_lt10 (w : ℕ) : ∀ n, ∀ d ∈ natToFixedRev w n, d < 10 := by
  induction w with
  | zero =>
    intro n d hd
    simp [natToFixedRev] at hd
  | succ w ih =>
    intro n d hd
    rw [natToFixedRev] at hd
    rcases List.mem_cons.mp hd with h | h
    · subst h
      exact Nat.mod_lt _ (by omega)
    · exact ih (n / 10) d h

theorem mod_mul_ten (A n : ℕ) (hA : 0 < A) :
    n % (10 * A) = n % 10 + 10 * (n / 10 % A) := by
  have h1 : n % 10 < 10 := Nat.mod_lt _ (by omega)
  have h2 : n / 10 % A < A := Nat.mod_lt _ hA
  have h3 : n = n % 10 + 10 * (n / 10 % A) + 10 * A * (n / 10 / A) := by
    conv_lhs => rw [← Nat.div_add_mod n 10]
    conv_lhs => rw [← Nat.div_add_mod (n / 10) A]
    ring
  conv_lhs => rw [h3]
  rw [Nat.add_mul_mod_self_left]
  exact Nat.mod_eq_of_lt (by nlinarith)

theorem ofRev_natToFixedRev (w : ℕ) : ∀ n, ofRev (natToFixedRev w n) = n % 10 ^ w := by
  induction w with
  | zero =>
    intro n
    simp [natToFixedRev, ofRev, Nat.mod_one]
  | succ w ih =>
    intro n
    rw [natToFixedRev, ofRev, ih (n / 10), pow_succ, mul_comm (10 ^ w) 10,
      mod_mul_ten _ _ (Nat.pos_pow_of_pos w (by omega))]

theorem digitChar_mem (d : ℕ) (h : d < 10) : Nat.digitChar d ∈ digitChars := by
  interval_cases d <;> decide

theorem digitChar_val (d : ℕ) (h : d < 10) : charVal (Nat.digitChar d) = d := by
  interval_cases d <;> decide

theorem digitChar_eq_zero_iff (d : ℕ) (h : d < 10) : Nat.digitChar d = '0' ↔ d = 0 := by
  interval_cases d <;> decide

theorem digit_ne_dot (c : Char) (h : c ∈ digitChars) : c ≠ '.' := by
  fin_cases h <;> decide

theorem digit_ne_dash (c : Char) (h : c ∈ digitChars) : c ≠ '-' := by
  fin_cases h <;> decide

theorem charVal_zero : charVal '0' = 0 := rfl

theorem dropWhile_append_cons (p : Char → Bool) (a : List Char) (c : Char)
    (b : List Char) (hc : p c = false) :
    List.dropWhile p (a ++ c :: b) = List.dropWhile p a ++ c :: b := by
  induction a with
  | nil => simp [List.dropWhile_cons, hc]
  | cons x t ih =>
    by_cases hx : p x
    · simp only [List.cons_append, List.dropWhile_cons, hx, if_true, ih]
    · simp only [List.cons_append, List.dropWhile_cons, hx, if_false]
      simp [hx]

theorem takeWhile_all_append (p : Char → Bool) (a : List Char) (c : Char)
    (b : List Char) (ha : ∀ x ∈ a, p x = true) (hc : p c = false) :
    List.takeWhile p (a ++ c :: b) = a ∧ List.dropWhile p (a ++ c :: b) = c :: b := by
  induction a with
  | nil => simp [List.takeWhile_cons, List.dropWhile_cons, hc]
  | cons x t ih =>
    have hx : p x = true := ha x (List.mem_cons_self x t)
    have ht : ∀ y ∈ t, p y = true := fun y hy => ha y (List.mem_cons_of_mem x hy)
    have := ih ht
    simp only [List.cons_append, List.takeWhile_cons, List.dropWhile_cons, hx,
      if_true, this.1, this.2]
    exact ⟨trivial, trivial⟩

theorem takeWhile_all (p : Char → Bool) (a : List Char) (ha : ∀ x ∈ a, p x = true) :
    List.takeWhile p a = a ∧ List.dropWhile p a = [] := by
  induction a with
  | nil => simp
  | cons x t ih =>
    have hx : p x = true := ha x (List.mem_cons_self x t)
    have ht : ∀ y ∈ t, p y = true := fun y hy => ha y (List.mem_cons_of_mem x hy)
    have := ih ht
    simp only [List.takeWhile_cons, List.dropWhile_cons, hx, if_true, this.1, this.2]
    exact ⟨trivial, trivial⟩

theorem dropWhile_head_false (p : Char → Bool) (l : List Char) (x : Char)
    (t : List Char) (h : List.dropWhile p l = x :: t) : p x = false := by
  induction l with
  | nil => simp [List.dropWhile] at h
  | cons y s ih =>
    rw [List.dropWhile_cons] at h
    split at h
    · exact ih h
    · cases h
      simp_all

theorem rstrip0_decomp (l : List Char) :
    l = rstrip0 l ++ List.replicate (List.takeWhile (fun c => c == '0') l.reverse).length '0' := by
  unfold rstrip0
  have h1 := List.takeWhile_append_dropWhile (p := fun c => c == '0') (l := l.reverse)
  have h2 : List.takeWhile (fun c => c == '0') l.reverse =
      List.replicate (List.takeWhile (fun c => c == '0') l.reverse).length '0' := by
    apply List.eq_replicate_of_mem
    intro b hb
    have := List.mem_takeWhile_imp hb
    simpa using this
  conv_lhs => rw [← List.reverse_reverse l, ← h1]
  rw [List.reverse_append, h2, List.reverse_replicate, List.length_replicate]

theorem rstrip0_no_trailing_zero (l : List Char) :
    (rstrip0 l).getLast? ≠ some '0' := by
  unfold rstrip0
  rw [List.getLast?_reverse]
  cases hd : List.dropWhile (fun c => c == '0') l.reverse with
  | nil => simp
  | cons x t =>
    have := dropWhile_head_false _ _ _ _ hd
    simp only [List.head?_cons]
    intro hcontra
    rw [Option.some_inj] at hcontra
    subst hcontra
    simp at this

theorem mem_rstrip0 (l : List Char) (x : Char) (hx : x ∈ rstrip0 l) : x ∈ l := by
  unfold rstrip0 at hx
  rw [List.mem_reverse] at hx
  have := (List.dropWhile_sublist (fun c => c == '0') (l := l.reverse)).mem hx
  rwa [List.mem_reverse] at this

theorem digitsVal_concat (l : List Char) (c : Char) :
    digitsVal (l ++ [c]) = 10 * digitsVal l + charVal c := by
  unfold digitsVal
  rw [List.foldl_append]
  rfl

theorem digitsVal_rev_map (ds : List ℕ) (h : ∀ d ∈ ds, d < 10) :
    digitsVal ((ds.map Nat.digitChar).reverse) = ofRev ds := by
  induction ds with
  | nil => rfl
  | cons d t ih =>
    have hd : d < 10 := h d (List.mem_cons_self d t)
    have ht : ∀ e ∈ t, e < 10 := fun e he => h e (List.mem_cons_of_mem d he)
    rw [List.map_cons, List.reverse_cons, digitsVal_concat, ih ht,
      digitChar_val d hd, ofRev]
    ring

theorem digitsVal_natDecimal (n : ℕ) : digitsVal (natDecimal n) = n := by
  by_cases hn : n = 0
  · subst hn
    rfl
  · rw [natDecimal, if_neg hn, digitsVal_rev_map _ (natToDigitsRev_lt10 n n),
      ofRev_natToDigitsRev n n le_rfl]

theorem natDecimal_ne_nil (n : ℕ) : natDecimal n ≠ [] := by
  by_cases hn : n = 0
  · subst hn
    simp [natDecimal]
  · rw [natDecimal, if_neg hn]
    intro hcontra
    simp only [List.reverse_eq_nil_iff, List.map_eq_nil_iff] at hcontra
    exact natToDigitsRev_ne_nil n n hn le_rfl hcontra

theorem natDecimal_digits (n : ℕ) (c : Char) (hc : c ∈ natDecimal n) :
    c ∈ digitChars := by
  by_cases hn : n = 0
  · subst hn
    rw [natDecimal] at hc
    simp at hc
    subst hc
    decide
  · rw [natDecimal, if_neg hn, List.mem_reverse, List.mem_map] at hc
    obtain ⟨d, hd, rfl⟩ := hc
    exact digitChar_mem d (natToDigitsRev_lt10 n n d hd)

theorem natDecimal_eq_zero_iff (n : ℕ) : natDecimal n = ['0'] ↔ n = 0 := by
  constructor
  · intro h
    have hv := digitsVal_natDecimal n
    rw [h] at hv
    have h0 : digitsVal ['0'] = 0 := rfl
    omega
  · intro h
    subst h
    rfl

theorem frac8_length (n : ℕ) : (frac8 n).length = WIRE_DECIMALS := by
  unfold frac8
  rw [List.length_reverse, List.length_map, natToFixedRev_length]

theorem frac8_digits (n : ℕ) (c : Char) (hc : c ∈ frac8 n) : c ∈ digitChars := by
  unfold frac8 at hc
  rw [List.mem_reverse, List.mem_map] at hc
  obtain ⟨d, hd, rfl⟩ := hc
  exact digitChar_mem d (natToFixedRev_lt10 _ n d hd)

theorem digitsVal_frac8 (n : ℕ) : digitsVal (frac8 n) = n % pow10 WIRE_DECIMALS := by
  unfold frac8 pow10
  rw [digitsVal_rev_map _ (natToFixedRev_lt10 _ n), ofRev_natToFixedRev]

theorem rstrip0_fmt_structure (sign intD fr : List Char) :
    rstrip0 (sign ++ intD ++ '.' :: fr) = sign ++ intD ++ '.' :: rstrip0 fr := by
  unfold rstrip0
  have h1 : (sign ++ intD ++ '.' :: fr).reverse =
      fr.reverse ++ '.' :: (intD.reverse ++ sign.reverse) := by
    simp
  rw [h1, dropWhile_append_cons _ _ _ _ (by decide)]
  simp

theorem stripDot_structure (sign intD fr : List Char)
    (hfr : ∀ c ∈ fr, c ∈ digitChars) :
    stripDot (sign ++ intD ++ '.' :: rstrip0 fr) =
      sign ++ intD ++ (if rstrip0 fr = [] then [] else '.' :: rstrip0 fr) := by
  by_cases h : rstrip0 fr = []
  · rw [h, if_pos rfl]
    unfold stripDot
    have hassoc : sign ++ intD ++ '.' :: ([] : List Char) = (sign ++ intD) ++ ['.'] := by
      simp
    rw [hassoc, if_pos (List.getLast?_concat _), List.dropLast_concat]
    simp
  · rw [if_neg h]
    obtain ⟨x, t, hxt⟩ : ∃ x t, rstrip0 fr = x :: t := by
      cases hfr' : rstrip0 fr with
      | nil => exact absurd hfr' h
      | cons x t => exact ⟨x, t, rfl⟩
    have hne : '.' :: rstrip0 fr ≠ [] := List.cons_ne_nil _ _
    have hlast : (sign ++ intD ++ '.' :: rstrip0 fr).getLast? = (rstrip0 fr).getLast? := by
      rw [List.append_assoc, hxt, List.getLast?_append_of_ne_nil _ (by simp),
        List.getLast?_append_of_ne_nil _ (by simp), List.getLast?_cons_cons]
    have hne0 : (rstrip0 fr).getLast? ≠ some '.' := by
      intro hcontra
      have hxm : '.' ∈ rstrip0 fr := List.mem_of_getLast?_eq_some hcontra
      exact digit_ne_dot '.' (hfr '.' (mem_rstrip0 fr '.' hxm)) rfl
    unfold stripDot
    rw [hlast] at *
    rw [if_neg (by rw [hlast]; exact hne0)]

theorem encodeMagN_eq (neg : Bool) (n : ℕ) :
    encodeMagN neg n =
      if neg = true ∧ natDecimal (n / pow10 WIRE_DECIMALS) = ['0'] ∧
          rstrip0 (frac8 n) = [] then ['0']
      else (if neg then ['-'] else []) ++ natDecimal (n / pow10 WIRE_DECIMALS) ++
        (if rstrip0 (frac8 n) = [] then [] else '.' :: rstrip0 (frac8 n)) := by
  have hstep : stripDot (rstrip0 (fmt8n neg n)) =
      (if neg then ['-'] else []) ++ natDecimal (n / pow10 WIRE_DECIMALS) ++
        (if rstrip0 (frac8 n) = [] then [] else '.' :: rstrip0 (frac8 n)) := by
    unfold fmt8n
    rw [rstrip0_fmt_structure, stripDot_structure _ _ _ (fun c hc => frac8_digits n c hc)]
  unfold encodeMagN encodeTrim
  rw [hstep]
  have hiff : ((if neg then ['-'] else []) ++ natDecimal (n / pow10 WIRE_DECIMALS) ++
      (if rstrip0 (frac8 n) = [] then [] else '.' :: rstrip0 (frac8 n)) = ['-', '0']) ↔
      (neg = true ∧ natDecimal (n / pow10 WIRE_DECIMALS) = ['0'] ∧
        rstrip0 (frac8 n) = []) := by
    constructor
    · intro h
      cases hneg : neg with
      | false =>
        exfalso
        rw [hneg] at h
        simp only [Bool.false_eq_true, if_false, List.nil_append] at h
        obtain ⟨c, r, hI⟩ : ∃ c r, natDecimal (n / pow10 WIRE_DECIMALS) = c :: r := by
          cases hI : natDecimal (n / pow10 WIRE_DECIMALS) with
          | nil => exact absurd hI (natDecimal_ne_nil _)
          | cons c r => exact ⟨c, r, rfl⟩
        rw [hI, List.cons_append] at h
        have hc : c = '-' := (List.cons.injEq _ _ _ _).mp h |>.1
        have : c ∈ digitChars := natDecimal_digits _ c (by rw [hI]; exact List.mem_cons_self c r)
        exact digit_ne_dash c this hc
      | true =>
        rw [hneg] at h
        simp only [if_true, List.cons_append, List.nil_append] at h
        have h2 : natDecimal (n / pow10 WIRE_DECIMALS) ++
            (if rstrip0 (frac8 n) = [] then [] else '.' :: rstrip0 (frac8 n)) = ['0'] := by
          have := (List.cons.injEq '-' _ '-' _).mp h
          exact this.2
        obtain ⟨c, r, hI⟩ : ∃ c r, natDecimal (n / pow10 WIRE_DECIMALS) = c :: r := by
          cases hI : natDecimal (n / pow10 WIRE_DECIMALS) with
          | nil => exact absurd hI (natDecimal_ne_nil _)
          | cons c r => exact ⟨c, r, rfl⟩
        rw [hI, List.cons_append] at h2
        have hc0 : c = '0' ∧ r ++ (if rstrip0 (frac8 n) = [] then []
            else '.' :: rstrip0 (frac8 n)) = [] := by
          have := (List.cons.injEq _ _ _ _).mp h2
          exact ⟨this.1, this.2⟩
        have hr : r = [] := by
          have := List.append_eq_nil.mp hc0.2
          exact this.1
        have hfp : rstrip0 (frac8 n) = [] := by
          have := List.append_eq_nil.mp hc0.2
          by_cases hcase : rstrip0 (frac8 n) = []
          · exact hcase
          · rw [if_neg hcase] at this
            exact absurd this.2 (List.cons_ne_nil _ _)
        refine ⟨rfl, ?_, hfp⟩
        rw [hI, hc0.1, hr]
    · rintro ⟨h1, h2, h3⟩
      rw [h1, h2, h3]
      simp
  simp only [hiff]

theorem getLast?_append2_cons (a b : List Char) (c x : Char) (t : List Char) :
    (a ++ b ++ c :: x :: t).getLast? = (x :: t).getLast? := by
  rw [List.append_assoc, List.getLast?_append_of_ne_nil _ (by simp),
    List.getLast?_append_of_ne_nil _ (by simp), List.getLast?_cons_cons]

theorem mem_sign (neg : Bool) (c : Char) (hc : c ∈ (if neg then ['-'] else [])) :
    c = '-' := by
  cases neg <;> simp_all

theorem encodeMagN_cases (neg : Bool) (n : ℕ) :
    encodeMagN neg n = ['0'] ∨
      encodeMagN neg n = (if neg then ['-'] else []) ++
        natDecimal (n / pow10 WIRE_DECIMALS) ++
        (if rstrip0 (frac8 n) = [] then [] else '.' :: rstrip0 (frac8 n)) := by
  rw [encodeMagN_eq]
  split
  · exact Or.inl rfl
  · exact Or.inr rfl

theorem encodeMagN_ne_nil (neg : Bool) (n : ℕ) : encodeMagN neg n ≠ [] := by
  rcases encodeMagN_cases neg n with h | h <;> rw [h]
  · exact List.cons_ne_nil _ _
  · intro hcontra
    rw [List.append_assoc] at hcontra
    have := List.append_eq_nil.mp hcontra
    have := List.append_eq_nil.mp this.2
    exact natDecimal_ne_nil _ this.1

theorem encodeMagN_grammar (neg : Bool) (n : ℕ) :
    matchesNumGrammar (encodeMagN neg n) := by
  rcases encodeMagN_cases neg n with h | h <;> rw [h]
  · exact ⟨[], ['0'], [], by simp, Or.inl rfl, List.cons_ne_nil _ _,
      fun c hc => by simp at hc; subst hc; decide, Or.inl rfl⟩
  · refine ⟨if neg then ['-'] else [], natDecimal (n / pow10 WIRE_DECIMALS),
      if rstrip0 (frac8 n) = [] then [] else '.' :: rstrip0 (frac8 n), rfl, ?_,
      natDecimal_ne_nil _, fun c hc => natDecimal_digits _ c hc, ?_⟩
    · cases neg
      · exact Or.inl (by simp)
      · exact Or.inr (by simp)
    · by_cases hr : rstrip0 (frac8 n) = []
      · exact Or.inl (by rw [if_pos hr])
      · exact Or.inr ⟨rstrip0 (frac8 n), by rw [if_neg hr], hr,
          fun c hc => frac8_digits n c (mem_rstrip0 _ c hc)⟩

theorem encodeMagN_no_trailing_zero (neg : Bool) (n : ℕ)
    (hdot : '.' ∈ encodeMagN neg n) : (encodeMagN neg n).getLast? ≠ some '0' := by
  rcases encodeMagN_cases neg n with h | h <;> rw [h] at hdot ⊢
  · simp at hdot
  · by_cases hr : rstrip0 (frac8 n) = []
    · exfalso
      rw [if_pos hr, List.append_nil] at hdot
      rcases List.mem_append.mp hdot with hm | hm
      · exact absurd (mem_sign neg '.' hm) (by decide)
      · exact digit_ne_dot '.' (natDecimal_digits _ '.' hm) rfl
    · rw [if_neg hr]
      obtain ⟨x, t, hxt⟩ : ∃ x t, rstrip0 (frac8 n) = x :: t := by
        cases hfr : rstrip0 (frac8 n) with
        | nil => exact absurd hfr hr
        | cons x t => exact ⟨x, t, rfl⟩
      rw [hxt, getLast?_append2_cons, ← hxt]
      exact rstrip0_no_trailing_zero (frac8 n)

theorem encodeMagN_no_trailing_dot (neg : Bool) (n : ℕ) :
    (encodeMagN neg n).getLast? ≠ some '.' := by
  rcases encodeMagN_cases neg n with h | h <;> rw [h]
  · decide
  · by_cases hr : rstrip0 (frac8 n) = []
    · rw [if_pos hr, List.append_nil,
        List.getLast?_append_of_ne_nil _ (natDecimal_ne_nil _)]
      intro hcontra
      exact digit_ne_dot '.' (natDecimal_digits _ '.'
        (List.mem_of_getLast?_eq_some hcontra)) rfl
    · rw [if_neg hr]
      obtain ⟨x, t, hxt⟩ : ∃ x t, rstrip0 (frac8 n) = x :: t := by
        cases hfr : rstrip0 (frac8 n) with
        | nil => exact absurd hfr hr
        | cons x t => exact ⟨x, t, rfl⟩
      rw [hxt, getLast?_append2_cons, ← hxt]
      intro hcontra
      exact digit_ne_dot '.' (frac8_digits n '.'
        (mem_rstrip0 _ '.' (List.mem_of_getLast?_eq_some hcontra))) rfl

theorem encodeMagN_zero (neg : Bool) : encodeMagN neg 0 = ['0'] := by
  cases neg <;> decide

/-- C2: for every finite input, the encoded string is never empty, matches
the grammar `-?[0-9]+(\.[0-9]+)?`, has no trailing zero fractional digit, has
no trailing decimal point, and is exactly `"0"` whenever the input rounds to
(positive or negative) zero at 8 fractional digits. Finite `f64` values are
taken by their exact rational value. -/
theorem canonical_string_shape (x : ℚ) :
    float_to_string_for_hashing x ≠ [] ∧
    matchesNumGrammar (float_to_string_for_hashing x) ∧
    ('.' ∈ float_to_string_for_hashing x →
      (float_to_string_for_hashing x).getLast? ≠ some '0') ∧
    (float_to_string_for_hashing x).getLast? ≠ some '.' ∧
    (roundHalfEven (|x| * (pow10 WIRE_DECIMALS : ℕ)) = 0 →
      float_to_string_for_hashing x = ['0']) := by
  unfold float_to_string_for_hashing encodeMag
  refine ⟨encodeMagN_ne_nil _ _, encodeMagN_grammar _ _,
    encodeMagN_no_trailing_zero _ _, encodeMagN_no_trailing_dot _ _, ?_⟩
  intro h
  rw [h]
  exact encodeMagN_zero _

section
attribute [local semireducible] Rat.mul Rat.inv Rat.add Rat.sub Rat.ofScientific

/-- C2 witness: `-10⁻¹⁰` (a negative value that rounds to zero at 8
fractional digits) encodes to `"0"`, by the zero clause of
`canonical_string_shape`. -/
theorem canonical_string_shape_witness :
    float_to_string_for_hashing (-1 / 10000000000) = ['0'] :=
  (canonical_string_shape (-1 / 10000000000)).2.2.2.2 (by decide)

/-- C4: the encoder's outputs on the exact rational values of the claimed
`f64` literals. The literal `0.0007600000` is the same `f64` as `0.00076`
(both denote `3504881374004815 / 2⁶²`); `-0.0` is the sign-bit/magnitude
pair `(true, 0)`; `87654321.12345678` denotes `1470595478821597 / 2²⁴` and
`87654321.1234` denotes `2941190957641289 / 2²⁵`. -/
theorem encode_test_vectors :
    float_to_string_for_hashing 0 = "0".data ∧
    encodeMag true 0 = "0".data ∧
    float_to_string_for_hashing ((3504881374004815 : ℚ) / 4611686018427387904) =
      "0.00076".data ∧
    float_to_string_for_hashing ((3504881374004815 : ℚ) / 4611686018427387904) =
      "0.00076".data ∧
    float_to_string_for_hashing (987654321 : ℚ) = "987654321".data ∧
    float_to_string_for_hashing ((1470595478821597 : ℚ) / 16777216) =
      "87654321.12345678".data ∧
    float_to_string_for_hashing ((2941190957641289 : ℚ) / 33554432) =
      "87654321.1234".data := by
  refine ⟨?_, ?_, ?_, ?_, ?_, ?_, ?_⟩ <;> decide

end

theorem bne_dot_of_digit (c : Char) (hc : c ∈ digitChars) : (c != '.') = true :=
  bne_iff_ne.mpr (digit_ne_dot c hc)

theorem denoteUnsigned_split (i f : List Char) (hi : ∀ c ∈ i, c ∈ digitChars) :
    denoteUnsigned (i ++ '.' :: f) =
      (digitsVal i : ℚ) + (digitsVal f : ℚ) / (pow10 f.length : ℕ) := by
  have h := takeWhile_all_append (fun c => c != '.') i '.' f
    (fun x hx => bne_dot_of_digit x (hi x hx)) (by decide)
  unfold denoteUnsigned
  rw [h.1, h.2]
  rfl

theorem denoteUnsigned_nofrac (i : List Char) (hi : ∀ c ∈ i, c ∈ digitChars) :
    denoteUnsigned i = (digitsVal i : ℚ) := by
  have h := takeWhile_all (fun c => c != '.') i
    (fun x hx => bne_dot_of_digit x (hi x hx))
  unfold denoteUnsigned
  rw [h.1, h.2]
  norm_num [digitsVal, pow10]

theorem digitsVal_append_replicate_zero (l : List Char) (k : ℕ) :
    digitsVal (l ++ List.replicate k '0') = digitsVal l * 10 ^ k := by
  induction k with
  | zero => simp
  | succ k ih =>
    rw [List.replicate_succ', ← List.append_assoc, digitsVal_concat, ih, charVal_zero]
    ring

theorem fracVal_append_replicate_zero (l : List Char) (k : ℕ) :
    ((digitsVal (l ++ List.replicate k '0') : ℕ) : ℚ) /
        (pow10 (l ++ List.replicate k '0').length : ℕ) =
      (digitsVal l : ℚ) / (pow10 l.length : ℕ) := by
  rw [digitsVal_append_replicate_zero]
  have hlen : (l ++ List.replicate k '0').length = l.length + k := by
    simp
  rw [hlen]
  simp only [pow10]
  push_cast
  rw [pow_add, mul_comm ((10 : ℚ) ^ l.length) _, mul_comm (digitsVal l : ℚ) _]
  rw [mul_div_mul_left _ _ (pow_ne_zero k (by norm_num))]

theorem fracVal_rstrip0 (l : List Char) :
    ((digitsVal (rstrip0 l) : ℕ) : ℚ) / (pow10 (rstrip0 l).length : ℕ) =
      (digitsVal l : ℚ) / (pow10 l.length : ℕ) := by
  conv_rhs => rw [rstrip0_decomp l]
  rw [fracVal_append_replicate_zero]

theorem nat_div_add_mod_q (n P : ℕ) (hP : 0 < P) :
    ((n / P : ℕ) : ℚ) + ((n % P : ℕ) : ℚ) / (P : ℕ) = (n : ℚ) / (P : ℕ) := by
  have h : P * (n / P) + n % P = n := Nat.div_add_mod n P
  have hQ : ((P : ℕ) : ℚ) ≠ 0 := Nat.cast_ne_zero.mpr (by omega)
  rw [eq_div_iff hQ, add_mul, div_mul_cancel₀ _ hQ]
  rw [Nat.mul_comm] at h
  exact_mod_cast h

theorem denoteUnsigned_core (n : ℕ) :
    denoteUnsigned (natDecimal (n / pow10 WIRE_DECIMALS) ++
        (if rstrip0 (frac8 n) = [] then [] else '.' :: rstrip0 (frac8 n))) =
      (n : ℚ) / (pow10 WIRE_DECIMALS : ℕ) := by
  by_cases hr : rstrip0 (frac8 n) = []
  · rw [if_pos hr, List.append_nil,
      denoteUnsigned_nofrac _ (fun c hc => natDecimal_digits _ c hc),
      digitsVal_natDecimal]
    have hmod : n % pow10 WIRE_DECIMALS = 0 := by
      have hd := rstrip0_decomp (frac8 n)
      rw [hr, List.nil_append] at hd
      have hz : digitsVal (frac8 n) = 0 := by
        rw [hd, ← List.nil_append (List.replicate _ '0'), digitsVal_append_replicate_zero]
        simp [digitsVal]
      rw [digitsVal_frac8] at hz
      exact hz
    have hq := nat_div_add_mod_q n (pow10 WIRE_DECIMALS) (by norm_num [pow10])
    rw [hmod] at hq
    simpa using hq
  · rw [if_neg hr,
      denoteUnsigned_split _ _ (fun c hc => natDecimal_digits _ c hc),
      digitsVal_natDecimal, fracVal_rstrip0, digitsVal_frac8, frac8_length]
    exact nat_div_add_mod_q n (pow10 WIRE_DECIMALS) (by norm_num [pow10])

theorem head_digit_ne_dash (i fp : List Char) (hi : i ≠ [])
    (hid : ∀ c ∈ i, c ∈ digitChars) : (i ++ fp).head? ≠ some '-' := by
  cases i with
  | nil => exact absurd rfl hi
  | cons c r =>
    simp only [List.cons_append, List.head?_cons]
    intro hcontra
    rw [Option.some_inj] at hcontra
    exact digit_ne_dash c (hid c (List.mem_cons_self c r)) hcontra

theorem denoteChars_single_zero : denoteChars ['0'] = 0 := by
  unfold denoteChars
  rw [if_neg (by decide)]
  rw [denoteUnsigned_nofrac _ (fun c hc => by simp at hc; subst hc; decide)]
  have h0 : digitsVal ['0'] = 0 := rfl
  rw [h0]
  norm_num

theorem denote_encodeMagN (neg : Bool) (n : ℕ) :
    denoteChars (encodeMagN neg n) =
      (if neg then (-1 : ℚ) else 1) * (n : ℚ) / (pow10 WIRE_DECIMALS : ℕ) := by
  rw [encodeMagN_eq]
  by_cases hcond : neg = true ∧ natDecimal (n / pow10 WIRE_DECIMALS) = ['0'] ∧
      rstrip0 (frac8 n) = []
  · rw [if_pos hcond]
    obtain ⟨h1, h2, h3⟩ := hcond
    have hdiv : n / pow10 WIRE_DECIMALS = 0 := (natDecimal_eq_zero_iff _).mp h2
    have hmod : n % pow10 WIRE_DECIMALS = 0 := by
      have hd := rstrip0_decomp (frac8 n)
      rw [h3, List.nil_append] at hd
      have hz : digitsVal (frac8 n) = 0 := by
        rw [hd, ← List.nil_append (List.replicate _ '0'), digitsVal_append_replicate_zero]
        simp [digitsVal]
      rw [digitsVal_frac8] at hz
      exact hz
    have hn : n = 0 := by
      have heq := Nat.div_add_mod n (pow10 WIRE_DECIMALS)
      rw [hdiv, hmod, Nat.mul_zero, Nat.add_zero] at heq
      exact heq.symm
    subst hn
    rw [denoteChars_single_zero]
    simp
  · rw [if_neg hcond]
    cases neg with
    | false =>
      simp only [Bool.false_eq_true, if_false, List.nil_append]
      unfold denoteChars
      rw [if_neg (head_digit_ne_dash _ _ (natDecimal_ne_nil _)
        (fun c hc => natDecimal_digits _ c hc))]
      rw [denoteUnsigned_core]
      ring
    | true =>
      have hshape : (if (true : Bool) then ['-'] else []) ++
          natDecimal (n / pow10 WIRE_DECIMALS) ++
          (if rstrip0 (frac8 n) = [] then [] else '.' :: rstrip0 (frac8 n)) =
          '-' :: (natDecimal (n / pow10 WIRE_DECIMALS) ++
            (if rstrip0 (frac8 n) = [] then [] else '.' :: rstrip0 (frac8 n))) := by
        simp
      rw [hshape]
      unfold denoteChars
      rw [if_pos (by rw [List.head?_cons])]
      rw [List.tail_cons, denoteUnsigned_core, if_pos rfl]
      ring

theorem denote_fmt8n (neg : Bool) (n : ℕ) :
    denoteChars (fmt8n neg n) =
      (if neg then (-1 : ℚ) else 1) * (n : ℚ) / (pow10 WIRE_DECIMALS : ℕ) := by
  have hcore : denoteUnsigned (natDecimal (n / pow10 WIRE_DECIMALS) ++ '.' :: frac8 n) =
      (n : ℚ) / (pow10 WIRE_DECIMALS : ℕ) := by
    rw [denoteUnsigned_split _ _ (fun c hc => natDecimal_digits _ c hc),
      digitsVal_natDecimal, digitsVal_frac8, frac8_length]
    exact nat_div_add_mod_q n (pow10 WIRE_DECIMALS) (by norm_num [pow10])
  unfold fmt8n
  cases neg with
  | false =>
    simp only [Bool.false_eq_true, if_false, List.nil_append]
    unfold denoteChars
    rw [if_neg (head_digit_ne_dash _ _ (natDecimal_ne_nil _)
      (fun c hc => natDecimal_digits _ c hc))]
    rw [hcore]
    ring
  | true =>
    have hshape : (if (true : Bool) then ['-'] else []) ++
        natDecimal (n / pow10 WIRE_DECIMALS) ++ '.' :: frac8 n =
        '-' :: (natDecimal (n / pow10 WIRE_DECIMALS) ++ '.' :: frac8 n) := by
      simp
    rw [hshape]
    unfold denoteChars
    rw [if_pos (by rw [List.head?_cons])]
    rw [List.tail_cons, hcore, if_pos rfl]
    ring

theorem roundHalfEven_nonneg (q : ℚ) (h : 0 ≤ q) : 0 ≤ roundHalfEven q := by
  unfold roundHalfEven
  have h0 : (0 : ℤ) ≤ ⌊q⌋ := Int.floor_nonneg.mpr h
  split
  · exact h0
  · split
    · omega
    · split <;> omega

/-- C9: the encoder's output, read back as a decimal number, is exactly the
input rounded at the 8th fractional digit (negative zero collapses to zero);
moreover the untrimmed fixed-point string denotes the same number, so
stripping trailing zeros, removing the bare decimal point, and replacing
`"-0"` by `"0"` never change the denoted value. -/
theorem encode_roundtrip (x : ℚ) :
    denoteChars (float_to_string_for_hashing x) = round8val x ∧
    denoteChars (fmt8n (decide (x < 0))
        (roundHalfEven (|x| * (pow10 WIRE_DECIMALS : ℕ))).toNat) = round8val x := by
  unfold float_to_string_for_hashing encodeMag round8val
  constructor
  · rw [denote_encodeMagN]
    by_cases hx : x < 0 <;> simp [hx]
  · rw [denote_fmt8n]
    by_cases hx : x < 0 <;> simp [hx]
